import Mathlib

/-
Verification of the similarity-pipeline scripts.

Embedded components (shallow embedding, translated from the Python sources):
* processHungarianAlgoOutput.py  — group aggregation of assignment files into a
  species-by-species similarity matrix (speciesSimilarity, symmetrization, diagonal).
* TestScripts/hungarianalgorithmRun.py — directional dictionaries, symmetric merge,
  cost-matrix construction and the Hungarian-assignment post-processing.
* diamond_blastp_mpi.py / AllvsAllMPIsimilaritySearch.py — task partitioning,
  block computation and global-matrix assembly.

Floating-point values are modelled as rationals; a NaN (missing value) is modelled
as `none` of an `Option` type, and operations propagate `none` the way IEEE
arithmetic propagates NaN on the operations the scripts use.
-/

/-! ## Group aggregator: processHungarianAlgoOutput.py -/

/-- Defined entries of a pandas column: the values that are not NaN. -/
def definedVals (xs : List (Option ℚ)) : List ℚ := xs.filterMap id

@[simp]
theorem definedVals_nil : definedVals [] = [] := rfl

@[simp]
theorem definedVals_cons_none (xs : List (Option ℚ)) :
    definedVals (none :: xs) = definedVals xs := rfl

@[simp]
theorem definedVals_cons_some (x : ℚ) (xs : List (Option ℚ)) :
    definedVals (some x :: xs) = x :: definedVals xs := rfl

/-- Sum of the defined entries of a column, as the pandas Series sum behaves:
missing values (NaN) are skipped and an empty column sums to 0. -/
def seriesSum (xs : List (Option ℚ)) : ℚ := (definedVals xs).sum

/-- Minimum of the defined entries of a column, as the pandas Series min behaves:
missing values are skipped; an empty or all-missing column has no minimum (NaN). -/
def seriesMin (xs : List (Option ℚ)) : Option ℚ := (definedVals xs).min?

@[simp]
theorem minQ_nil : (([] : List ℚ)).min? = none := rfl

@[simp]
theorem minQ_cons (a : ℚ) (l : List ℚ) : (a :: l).min? = some (l.foldl min a) := rfl

/-- Embeds the per-file similarity computation of processHungarianAlgoOutput.py
(lines 39-56) for a non-self pair: min_matches = min(na, nb), observed is the
number of rows; when observed < min_matches the shortfall is padded with the
minimum observed value, else the plain normalized sum is taken. The result is
`none` exactly when the Python expression evaluates to NaN. -/
def speciesSimilarity (na nb : ℕ) (pidents : List (Option ℚ)) : Option ℚ :=
  let min_matches : ℕ := min na nb
  let observed := pidents.length
  if observed < min_matches then
    match seriesMin pidents with
    | none => none
    | some mn =>
        some ((seriesSum pidents + ((min_matches - observed : ℕ) : ℚ) * mn) / (min_matches : ℚ))
  else
    some (seriesSum pidents / (min_matches : ℚ))

/-- One assignment file: the two species ids parsed from the file name and the
avg_pident column of its rows (a missing value is `none`). -/
structure FileEntry where
  a : String
  b : String
  pidents : List (Option ℚ)
deriving DecidableEq

/-- Embeds the loop body of processHungarianAlgoOutput.py (lines 30-59) for one
file: a self pair stores 100 without computation; a pair with a missing sequence
count is skipped (result `none` = nothing stored); otherwise the computed
similarity (possibly NaN = `some none`) is stored. -/
def entryValue (seqCount : String → Option ℕ) (e : FileEntry) : Option (Option ℚ) :=
  if e.a = e.b then some (some 100)
  else
    match seqCount e.a, seqCount e.b with
    | some na, some nb => some (speciesSimilarity na nb e.pidents)
    | _, _ => none

/-- Store a value into the nested results dictionary: overwrite the entry of the
key when present, append it otherwise. -/
def storeResult (res : List ((String × String) × Option ℚ)) (k : String × String)
    (v : Option ℚ) : List ((String × String) × Option ℚ) :=
  if res.any (fun p => p.1 = k) then res.map (fun p => if p.1 = k then (k, v) else p)
  else res ++ [(k, v)]

/-- Embeds the whole results-building loop of processHungarianAlgoOutput.py:
fold over the assignment files, storing each non-skipped value. -/
def aggregate (entries : List FileEntry) (seqCount : String → Option ℕ) :
    List ((String × String) × Option ℚ) :=
  entries.foldl
    (fun res e =>
      match entryValue seqCount e with
      | some v => storeResult res (e.a, e.b) v
      | none => res)
    []

/-- Dictionary lookup in the results list (first entry with the key; the keys
are unique by construction of storeResult). -/
def lookupKey (res : List ((String × String) × Option ℚ)) (k : String × String) :
    Option (Option ℚ) :=
  match res with
  | [] => none
  | p :: rest => if p.1 = k then some p.2 else lookupKey rest k

@[simp]
theorem lookupKey_nil (k : String × String) : lookupKey [] k = none := rfl

@[simp]
theorem lookupKey_cons (p : (String × String) × Option ℚ)
    (rest : List ((String × String) × Option ℚ)) (k : String × String) :
    lookupKey (p :: rest) k = if p.1 = k then some p.2 else lookupKey rest k := rfl

/-- Lookup of a cell of the assembled DataFrame before symmetrization: `none`
covers both an absent cell and a stored NaN, which pandas combine_first treats
identically (both are null). -/
def resLookup (res : List ((String × String) × Option ℚ)) (a b : String) : Option ℚ :=
  (lookupKey res (a, b)).getD none

/-- Row and column labels of the final matrix: combine_first aligns on the union
of the index and columns of the frame and of its transpose. -/
def matrixLabels (res : List ((String × String) × Option ℚ)) : List String :=
  ((res.map (fun p => p.1.1)) ++ (res.map (fun p => p.1.2))).dedup

/-- Embeds lines 64-69 of processHungarianAlgoOutput.py: combine_first with the
transpose fills a null (A,B) cell from (B,A), then every diagonal cell is forced
to 100. -/
def finalCell (res : List ((String × String) × Option ℚ)) (a b : String) : Option ℚ :=
  if a = b then some 100
  else
    match resLookup res a b with
    | some v => some v
    | none => resLookup res b a

/-- Sequence-count table used by the concrete instances below. -/
def demoSeqCount : String → Option ℕ :=
  fun s => if s = "x" ∨ s = "y" then some 2 else none

/-- Every finite nonempty list of rationals has a minimum. -/
theorem minQ_exists (l : List ℚ) (h : 0 < l.length) : ∃ mn, l.min? = some mn := by
  cases l with
  | nil => simp at h
  | cons a t => exact ⟨t.foldl min a, rfl⟩

/-- Lists of defined values only: definedVals of a map-some list is the list. -/
theorem definedVals_map_some (l : List ℚ) : definedVals (l.map some) = l := by
  induction l with
  | nil => rfl
  | cons a t ih => simpa using ih

/-- C5: for a non-self pair with both sequence counts present and all avg_pident
values defined, the stored similarity is sum/minMatches when enough pairs were
observed and the min-padded value when 0 < observed < minMatches; a self pair is
stored as 100 with no computation; and the end-to-end example nA=3, nB=2 with a
single avgPident of 80 yields exactly 80. -/
theorem speciesSimilarity_cases (na nb : ℕ) (vals : List ℚ) (hmm : 0 < min na nb) :
    (min na nb ≤ vals.length →
      speciesSimilarity na nb (vals.map some) = some (vals.sum / ((min na nb : ℕ) : ℚ))) ∧
    (0 < vals.length → vals.length < min na nb →
      ∃ mn, vals.min? = some mn ∧
        speciesSimilarity na nb (vals.map some) =
          some ((vals.sum + ((min na nb - vals.length : ℕ) : ℚ) * mn) / ((min na nb : ℕ) : ℚ))) ∧
    (∀ (sc : String → Option ℕ) (e : FileEntry), e.a = e.b →
      entryValue sc e = some (some 100)) ∧
    speciesSimilarity 3 2 [some 80] = some 80 := by
  refine ⟨?_, ?_, ?_, ?_⟩
  · intro hge
    rw [speciesSimilarity]
    simp only [seriesSum, seriesMin, definedVals_map_some, List.length_map]
    rw [if_neg (by omega)]
  · intro hpos hlt
    obtain ⟨mn, hmn⟩ := minQ_exists vals hpos
    refine ⟨mn, hmn, ?_⟩
    rw [speciesSimilarity]
    simp only [seriesSum, seriesMin, definedVals_map_some, List.length_map]
    rw [if_pos (by omega), hmn]
  · intro sc e he
    rw [entryValue, if_pos he]
  · simp [speciesSimilarity, seriesSum, seriesMin]

/-- Witness for speciesSimilarity_cases at the end-to-end example of the claim:
nA = 3, nB = 2, a single chosen pair with avgPident 80 gives similarity 80. -/
theorem speciesSimilarity_cases_witness : speciesSimilarity 3 2 [some 80] = some 80 :=
  (speciesSimilarity_cases 3 2 [80] (by norm_num)).2.2.2

/-- C2 (code behaviour at the failing input): an assignment file for the pair
(x, y) with zero chosen records and sequence counts 2 and 2 is neither skipped
nor rejected: the pair is stored with value NaN (none) and the final matrix,
whose labels include x and y, holds NaN at cell (x, y). -/
theorem observed_zero_not_skipped :
    aggregate [⟨"x", "y", []⟩] demoSeqCount = [(("x", "y"), none)] ∧
    finalCell (aggregate [⟨"x", "y", []⟩] demoSeqCount) "x" "y" = none ∧
    "x" ∈ matrixLabels (aggregate [⟨"x", "y", []⟩] demoSeqCount) ∧
    "y" ∈ matrixLabels (aggregate [⟨"x", "y", []⟩] demoSeqCount) := by
  refine ⟨?_, ?_, ?_, ?_⟩ <;>
    simp [aggregate, entryValue, demoSeqCount, storeResult, speciesSimilarity, seriesSum,
      seriesMin, finalCell, resLookup, matrixLabels, List.mem_dedup]

/-- C3 counterexample: two assignment files x_vs_y (one record, avg_pident 20)
and y_vs_x (one record, avg_pident 40) with sequence counts 2 and 2 produce a
final matrix whose cells (x, y) = 20 and (y, x) = 40 differ although both labels
appear in the matrix: the written matrix is not symmetric. -/
theorem final_matrix_not_symmetric :
    "x" ∈ matrixLabels (aggregate [⟨"x", "y", [some 20]⟩, ⟨"y", "x", [some 40]⟩] demoSeqCount) ∧
    "y" ∈ matrixLabels (aggregate [⟨"x", "y", [some 20]⟩, ⟨"y", "x", [some 40]⟩] demoSeqCount) ∧
    finalCell (aggregate [⟨"x", "y", [some 20]⟩, ⟨"y", "x", [some 40]⟩] demoSeqCount) "x" "y"
      = some 20 ∧
    finalCell (aggregate [⟨"x", "y", [some 20]⟩, ⟨"y", "x", [some 40]⟩] demoSeqCount) "y" "x"
      = some 40 ∧
    finalCell (aggregate [⟨"x", "y", [some 20]⟩, ⟨"y", "x", [some 40]⟩] demoSeqCount) "x" "y"
      ≠ finalCell (aggregate [⟨"x", "y", [some 20]⟩, ⟨"y", "x", [some 40]⟩] demoSeqCount) "y" "x" := by
  refine ⟨?_, ?_, ?_, ?_, ?_⟩ <;>
    simp [aggregate, entryValue, demoSeqCount, storeResult, speciesSimilarity, seriesSum,
      seriesMin, finalCell, resLookup, matrixLabels, List.mem_dedup]

/-- C3 amended: every diagonal cell of the final matrix is forced to 100, and
the cells (a, b) and (b, a) agree whenever at most one of the two directional
values was computed or both were computed equal; only a pair computed in both
directions with different values breaks symmetry. -/
theorem final_matrix_cases (res : List ((String × String) × Option ℚ)) (a b : String)
    (h : resLookup res a b = none ∨ resLookup res b a = none ∨
      resLookup res a b = resLookup res b a) :
    finalCell res a a = some 100 ∧ finalCell res a b = finalCell res b a := by
  refine ⟨by rw [finalCell, if_pos rfl], ?_⟩
  by_cases hab : a = b
  · subst hab; rfl
  · have hba : ¬b = a := fun hba => hab hba.symm
    rw [finalCell, finalCell, if_neg hab, if_neg hba]
    rcases h with h | h | h
    · rw [h]
      rcases hE : resLookup res b a with _ | v <;> simp [hE]
    · rw [h]
      rcases hE : resLookup res a b with _ | v <;> simp [hE]
    · rw [h]

/-- Witness for final_matrix_cases: on the single-file input storing only the
pair (x, y), the cell (y, x) was never computed, and the final matrix has equal
values at (x, y) and (y, x), and 100 on the diagonal. -/
theorem final_matrix_cases_witness :
    finalCell (aggregate [⟨"x", "y", [some 20]⟩] demoSeqCount) "x" "x" = some 100 ∧
    finalCell (aggregate [⟨"x", "y", [some 20]⟩] demoSeqCount) "x" "y"
      = finalCell (aggregate [⟨"x", "y", [some 20]⟩] demoSeqCount) "y" "x" :=
  final_matrix_cases (aggregate [⟨"x", "y", [some 20]⟩] demoSeqCount) "x" "y"
    (by simp [aggregate, entryValue, demoSeqCount, storeResult, speciesSimilarity, seriesSum,
      seriesMin, resLookup])

/-- C2 as the code actually behaves, in general: for any non-self pair with both
sequence counts present and a positive minMatches, an empty assignment file is
not skipped: the computed similarity is NaN (none) and it is stored for the
pair. -/
theorem observed_zero_stores_nan (sc : String → Option ℕ) (a b : String) (na nb : ℕ)
    (hab : a ≠ b) (ha : sc a = some na) (hb : sc b = some nb) (hmm : 0 < min na nb) :
    entryValue sc ⟨a, b, []⟩ = some none ∧
    aggregate [⟨a, b, []⟩] sc = [((a, b), none)] := by
  have hval : entryValue sc ⟨a, b, []⟩ = some none := by
    rw [entryValue, if_neg hab]
    simp only [ha, hb]
    rw [speciesSimilarity]
    simp only [seriesMin, definedVals_nil, List.length_nil, minQ_nil]
    rw [if_pos (by omega)]
  refine ⟨hval, ?_⟩
  rw [aggregate, List.foldl_cons, hval, List.foldl_nil]
  simp [storeResult]

/-- Witness for observed_zero_stores_nan at the concrete failing input x, y with
two sequences on each side. -/
theorem observed_zero_stores_nan_witness :
    entryValue demoSeqCount ⟨"x", "y", []⟩ = some none ∧
    aggregate [⟨"x", "y", []⟩] demoSeqCount = [(("x", "y"), none)] :=
  observed_zero_stores_nan demoSeqCount "x" "y" 2 2 (by decide)
    (by simp [demoSeqCount]) (by simp [demoSeqCount]) (by norm_num)

/-! ## Symmetric merge and assignment: TestScripts/hungarianalgorithmRun.py -/

/-- One parsed row of an outfmt6 hit table after read_outfmt6: rows whose
length, evalue or bitscore failed numeric coercion were dropped; pident may
still be NaN (`none`). The same shape is used for the values of the
directional dictionaries built by to_dir_dict. -/
structure HitRow where
  qseqid : String
  sseqid : String
  pident : Option ℚ
  length : ℚ
  evalue : ℚ
  bitscore : ℚ
deriving DecidableEq

/-- Swap the two ids of a record, keeping the numeric payload. -/
def HitRow.flipIds (r : HitRow) : HitRow :=
  ⟨r.sseqid, r.qseqid, r.pident, r.length, r.evalue, r.bitscore⟩

@[simp]
theorem flipIds_flipIds (r : HitRow) : r.flipIds.flipIds = r := rfl

@[simp]
theorem flipIds_bitscore (r : HitRow) : r.flipIds.bitscore = r.bitscore := rfl

/-- Embeds the two threshold filters of to_dir_dict (lines 34-37): drop the row
when length < Lmin or evalue > emax, each only when the threshold is set. -/
def passesFilters (emax Lmin : Option ℚ) (r : HitRow) : Bool :=
  !(match Lmin with | some lm => decide (r.length < lm) | none => false) &&
  !(match emax with | some em => decide (em < r.evalue) | none => false)

/-- Condition of the dictionary update of to_dir_dict (line 41): the key is new
or the incoming row has a strictly greater bitscore. -/
def updateCond (prev : Option HitRow) (r : HitRow) : Bool :=
  match prev with
  | none => true
  | some p => decide (p.bitscore < r.bitscore)

/-- Embeds the dictionary update of to_dir_dict (lines 38-49): key on
(qseqid, sseqid), or on the swapped pair when flip, and keep the row with the
strictly greater bitscore (the first stored row wins ties). -/
def dirUpdate (flip : Bool) (D : (String × String) → Option HitRow) (r : HitRow) :
    (String × String) → Option HitRow :=
  let A := if flip then r.sseqid else r.qseqid
  let B := if flip then r.qseqid else r.sseqid
  let stored : HitRow := ⟨A, B, r.pident, r.length, r.evalue, r.bitscore⟩
  if updateCond (D (A, B)) r then fun k => if k = (A, B) then some stored else D k
  else D

/-- Embeds to_dir_dict of hungarianalgorithmRun.py (lines 26-50) as a fold over
the rows; the resulting dictionary is represented as a function from keys to an
optional best record. -/
def to_dir_dict (df : List HitRow) (flip : Bool) (emax Lmin : Option ℚ) :
    (String × String) → Option HitRow :=
  df.foldl (fun D r => if passesFilters emax Lmin r then dirUpdate flip D r else D)
    (fun _ => none)

/-- Embeds _avg_two (lines 52-62): average two values when both are defined,
else the defined one, else NaN. -/
def avg_two (a b : Option ℚ) : Option ℚ :=
  match a, b with
  | some x, some y => some ((x + y) / 2)
  | some x, none => some x
  | none, some y => some y
  | none, none => none

/-- A merged symmetric record: the fields of the chosen directional record plus
the combined score, the two directional pidents and their average. -/
structure MergedRec where
  qseqid : String
  sseqid : String
  pident : Option ℚ
  length : ℚ
  evalue : ℚ
  bitscore : ℚ
  score : ℚ
  pident_a2b : Option ℚ
  pident_b2a : Option ℚ
  avg_pident : Option ℚ
deriving DecidableEq

/-- Auxiliary fields of a merged record that are copied from the winning
directional record. -/
def MergedRec.auxData (m : MergedRec) : String × String × Option ℚ × ℚ × ℚ × ℚ :=
  (m.qseqid, m.sseqid, m.pident, m.length, m.evalue, m.bitscore)

/-- Tuple of the fields of a directional record, for comparison with auxData. -/
def HitRow.auxData (r : HitRow) : String × String × Option ℚ × ℚ × ℚ × ℚ :=
  (r.qseqid, r.sseqid, r.pident, r.length, r.evalue, r.bitscore)

/-- Embeds the per-key body of merge_symmetric (lines 71-101): how is the merge
mode string, with any string other than max and min behaving as avg, as in the
Python conditional chain. -/
def mergeOne (v1 v2 : Option HitRow) (how : String) : Option MergedRec :=
  match v1, v2 with
  | some r1, some r2 =>
      let chosen :=
        if how = "max" then (if r2.bitscore ≤ r1.bitscore then r1 else r2)
        else if how = "min" then (if r1.bitscore ≤ r2.bitscore then r1 else r2)
        else (if r2.bitscore ≤ r1.bitscore then r1 else r2)
      let score :=
        if how = "max" then max r1.bitscore r2.bitscore
        else if how = "min" then min r1.bitscore r2.bitscore
        else (r1.bitscore + r2.bitscore) / 2
      some ⟨chosen.qseqid, chosen.sseqid, chosen.pident, chosen.length, chosen.evalue,
        chosen.bitscore, score, r1.pident, r2.pident, avg_two r1.pident r2.pident⟩
  | some r1, none =>
      some ⟨r1.qseqid, r1.sseqid, r1.pident, r1.length, r1.evalue, r1.bitscore, r1.bitscore,
        r1.pident, none, avg_two r1.pident none⟩
  | none, some r2 =>
      some ⟨r2.qseqid, r2.sseqid, r2.pident, r2.length, r2.evalue, r2.bitscore, r2.bitscore,
        none, r2.pident, avg_two none r2.pident⟩
  | none, none => none

/-- Embeds merge_symmetric (lines 64-102) pointwise: the Python loop runs over
the union of the key sets, and a key outside the union yields no record, which
is exactly mergeOne none none. -/
def merge_symmetric (a2b b2a : (String × String) → Option HitRow) (how : String) :
    (String × String) → Option MergedRec :=
  fun k => mergeOne (a2b k) (b2a k) how

/-- Lexicographic comparison of two character lists by code point, the order
Python uses to compare strings. -/
def strLeB : List Char → List Char → Bool
  | [], _ => true
  | _ :: _, [] => false
  | c :: cs, d :: ds =>
      if c.toNat < d.toNat then true
      else if d.toNat < c.toNat then false
      else strLeB cs ds

/-- Insertion of a string into a sorted list, used to model the Python sorted
builtin on the key sets. -/
def insertStr (a : String) : List String → List String
  | [] => [a]
  | b :: l => if strLeB a.data b.data then a :: b :: l else b :: insertStr a l

/-- Removal of duplicates, modelling the Python set builtin; the order does not
matter because the result is sorted afterwards. -/
def dedupStr : List String → List String
  | [] => []
  | a :: l => if a ∈ dedupStr l then dedupStr l else a :: dedupStr l

/-- Sorting by repeated insertion; Python sorted(set(...)) is modelled as
insertion sort after removing duplicates. -/
def sortStr (l : List String) : List String := l.foldr insertStr []

/-- Index of the first occurrence of a string, modelling the enumerate-built
index dictionaries qi and ti of build_cost_matrix. -/
def idxOf (a : String) : List String → ℕ
  | [] => 0
  | b :: l => if b = a then 0 else idxOf a l + 1

/-- State of the build_cost_matrix fold over merged items: the score matrix,
the cell dictionary and the running maximum score. -/
def buildStep (queries targets : List String)
    (st : (ℕ → ℕ → ℚ) × (ℕ → ℕ → Option MergedRec) × ℚ)
    (p : (String × String) × MergedRec) :
    (ℕ → ℕ → ℚ) × (ℕ → ℕ → Option MergedRec) × ℚ :=
  let i := idxOf p.1.1 queries
  let j := idxOf p.1.2 targets
  let s := p.2.score
  ((if st.1 i j < s then fun iq jt => if iq = i ∧ jt = j then s else st.1 iq jt else st.1),
   (if st.1 i j < s then fun iq jt => if iq = i ∧ jt = j then some p.2 else st.2.1 iq jt
    else st.2.1),
   (if st.2.2 < s then s else st.2.2))

/-- Output of build_cost_matrix: the sorted unique query and target lists, the
score matrix, the cell dictionary and the maximum observed score. -/
structure BuildOut where
  queries : List String
  targets : List String
  score : ℕ → ℕ → ℚ
  cell : ℕ → ℕ → Option MergedRec
  max_score : ℚ

/-- Embeds build_cost_matrix (lines 104-123): sorted unique queries and
targets, score matrix initialized to 0 and filled with each record score when
it exceeds the current cell (so the cell dictionary only holds records with
positive score), and the maximum score across the matrix. -/
def build_cost_matrix (merged : List ((String × String) × MergedRec)) : BuildOut :=
  let queries := sortStr (dedupStr (merged.map (fun p => p.1.1)))
  let targets := sortStr (dedupStr (merged.map (fun p => p.1.2)))
  let st := merged.foldl (buildStep queries targets) (fun _ _ => 0, fun _ _ => none, 0)
  ⟨queries, targets, st.1, st.2.1, st.2.2⟩

/-- The cost matrix as a list of rows: cost = max_score - score. -/
def cost_matrix (b : BuildOut) : List (List ℚ) :=
  (List.range b.queries.length).map
    (fun i => (List.range b.targets.length).map (fun j => b.max_score - b.score i j))

/-- Embeds solve_hungarian (lines 125-140) with transpose_if_needed = True, the
only way main calls it: when rows > cols the matrix is transposed, the solver
output is unpacked as (col_ind, row_ind), and (row_ind, col_ind, True) is
returned; otherwise the solver output is returned unswapped with False.
The external solver is a parameter. -/
def solve_hungarian (LSA : List (List ℚ) → List ℕ × List ℕ) (cost : List (List ℚ)) :
    List ℕ × List ℕ × Bool :=
  let n := cost.length
  let m := (cost.head?.getD []).length
  if m < n then
    let sol := LSA cost.transpose
    (sol.2, sol.1, true)
  else
    let sol := LSA cost
    (sol.1, sol.2, false)

/-- Embeds the chosen-pairs loop of main (lines 163-180): for each solver pair
(i, j), swap into (ii, jj) when the matrix was transposed, keep the pair when
the indices are within range and a cell record exists. -/
def chosenPairs (nq mt : ℕ) (cell : ℕ → ℕ → Option MergedRec)
    (r c : List ℕ) (transposed : Bool) : List (ℕ × ℕ × MergedRec) :=
  (r.zip c).filterMap (fun ij =>
    let ii := if transposed then ij.2 else ij.1
    let jj := if transposed then ij.1 else ij.2
    if ii < nq ∧ jj < mt then (cell ii jj).map (fun m => (ii, jj, m)) else none)

/-- Embeds the assignment part of main (lines 160-180): build the cost matrix
from the merged records, solve, and collect the chosen real pairs. -/
def mainChosen (LSA : List (List ℚ) → List ℕ × List ℕ)
    (merged : List ((String × String) × MergedRec)) : List (ℕ × ℕ × MergedRec) :=
  let b := build_cost_matrix merged
  let sol := solve_hungarian LSA (cost_matrix b)
  chosenPairs b.queries.length b.targets.length b.cell sol.1 sol.2.1 sol.2.2

/-- Modelled from the spec: the external AssignmentSolver (scipy
linear_sum_assignment) is not part of this repository. Its documented contract:
given an n x m cost matrix with n <= m, return index arrays (range n, cols)
describing a minimum-total-cost one-to-one assignment of every row to a
distinct column. injFrom enumerates the candidate column assignments. -/
def injFrom (cols : List ℕ) : ℕ → List (List ℕ)
  | 0 => [[]]
  | n + 1 => cols.flatMap (fun c0 => (injFrom (cols.erase c0) n).map (fun rest => c0 :: rest))

/-- Total cost of assigning row i to column cols[i], rows beyond the matrix
counting zero. -/
def assignCost (cost : List (List ℚ)) (cols : List ℕ) : ℚ :=
  ((cost.zip cols).map (fun rc => rc.1.getD rc.2 0)).sum

/-- Modelled from the spec: a concrete minimum-total-cost solver fulfilling the
AssignmentSolver contract by brute force, deterministically taking the first
optimum in enumeration order. -/
def lsaSpec (cost : List (List ℚ)) : List ℕ × List ℕ :=
  let n := cost.length
  let m := (cost.head?.getD []).length
  match injFrom (List.range m) n with
  | [] => ([], [])
  | c0 :: rest =>
      (List.range n,
       rest.foldl (fun best c1 => if assignCost cost c1 < assignCost cost best then c1 else best) c0)

/-- Optimality of a column assignment for a cost matrix, phrased over the
finite candidate enumeration so that it is decidable. -/
def IsOptimalAssign (cost : List (List ℚ)) (cols : List ℕ) : Prop :=
  cols ∈ injFrom (List.range ((cost.head?.getD []).length)) cost.length ∧
  ∀ c1 ∈ injFrom (List.range ((cost.head?.getD []).length)) cost.length,
    assignCost cost cols ≤ assignCost cost c1

/-- C6: merge semantics of merge_symmetric. With both directional records
present the combined score is the mean (avg), maximum (max) or minimum (min) of
the two bitscores and the auxiliary fields come from the side with the strictly
higher (avg, max) or strictly lower (min) bitscore; with one record the
bitscore is the score and the missing pident is explicitly NaN; avg_pident is
the mean of the two pidents when both are defined, else the defined one, else
NaN, never zero-filled. -/
theorem merge_modes (r1 r2 : HitRow) (x y : ℚ) :
    ((mergeOne (some r1) (some r2) "avg").map MergedRec.score
        = some ((r1.bitscore + r2.bitscore) / 2)) ∧
    ((mergeOne (some r1) (some r2) "max").map MergedRec.score
        = some (max r1.bitscore r2.bitscore)) ∧
    ((mergeOne (some r1) (some r2) "min").map MergedRec.score
        = some (min r1.bitscore r2.bitscore)) ∧
    (r2.bitscore < r1.bitscore →
      (mergeOne (some r1) (some r2) "avg").map MergedRec.auxData = some r1.auxData ∧
      (mergeOne (some r1) (some r2) "max").map MergedRec.auxData = some r1.auxData ∧
      (mergeOne (some r1) (some r2) "min").map MergedRec.auxData = some r2.auxData) ∧
    (r1.bitscore < r2.bitscore →
      (mergeOne (some r1) (some r2) "avg").map MergedRec.auxData = some r2.auxData ∧
      (mergeOne (some r1) (some r2) "max").map MergedRec.auxData = some r2.auxData ∧
      (mergeOne (some r1) (some r2) "min").map MergedRec.auxData = some r1.auxData) ∧
    (∀ how : String,
      (mergeOne (some r1) (some r2) how).map MergedRec.pident_a2b = some r1.pident ∧
      (mergeOne (some r1) (some r2) how).map MergedRec.pident_b2a = some r2.pident ∧
      (mergeOne (some r1) (some r2) how).map MergedRec.avg_pident
        = some (avg_two r1.pident r2.pident)) ∧
    (∀ how : String,
      (mergeOne (some r1) none how).map MergedRec.score = some r1.bitscore ∧
      (mergeOne (some r1) none how).map MergedRec.pident_a2b = some r1.pident ∧
      (mergeOne (some r1) none how).map MergedRec.pident_b2a = some none ∧
      (mergeOne none (some r2) how).map MergedRec.score = some r2.bitscore ∧
      (mergeOne none (some r2) how).map MergedRec.pident_a2b = some none ∧
      (mergeOne none (some r2) how).map MergedRec.pident_b2a = some r2.pident ∧
      (mergeOne (some r1) none how).map MergedRec.avg_pident = some (avg_two r1.pident none) ∧
      (mergeOne none (some r2) how).map MergedRec.avg_pident = some (avg_two none r2.pident)) ∧
    (avg_two (some x) (some y) = some ((x + y) / 2) ∧ avg_two (some x) none = some x ∧
      avg_two none (some y) = some y ∧ avg_two none none = none) := by
  refine ⟨by simp [mergeOne], by simp [mergeOne], by simp [mergeOne], ?_, ?_, ?_, ?_, ?_⟩
  · intro h
    have hle : r2.bitscore ≤ r1.bitscore := le_of_lt h
    have hnle : ¬r1.bitscore ≤ r2.bitscore := not_le.mpr h
    refine ⟨?_, ?_, ?_⟩ <;> simp [mergeOne, MergedRec.auxData, HitRow.auxData, hle, hnle]
  · intro h
    have hle : r1.bitscore ≤ r2.bitscore := le_of_lt h
    have hnle : ¬r2.bitscore ≤ r1.bitscore := not_le.mpr h
    refine ⟨?_, ?_, ?_⟩ <;> simp [mergeOne, MergedRec.auxData, HitRow.auxData, hle, hnle]
  · intro how
    refine ⟨?_, ?_, ?_⟩ <;> simp [mergeOne]
  · intro how
    refine ⟨?_, ?_, ?_, ?_, ?_, ?_, ?_, ?_⟩ <;> simp [mergeOne]
  · exact ⟨rfl, rfl, rfl, rfl⟩

/-- Directional records used by the witness below: forward bitscore 10,
reverse bitscore 4. -/
def hitFwd : HitRow := ⟨"p", "q", some 90, 50, 0, 10⟩

/-- Reverse-direction record for the witness. -/
def hitRev : HitRow := ⟨"q", "p", some 70, 40, 0, 4⟩

/-- Witness for merge_modes at concrete records with bitscores 10 and 4: the
avg score is 7, the avg and min auxiliary sides are the forward and reverse
record respectively, and avg_pident is 80. -/
theorem merge_modes_witness :
    (mergeOne (some hitFwd) (some hitRev) "avg").map MergedRec.score = some 7 ∧
    (mergeOne (some hitFwd) (some hitRev) "avg").map MergedRec.auxData = some hitFwd.auxData ∧
    (mergeOne (some hitFwd) (some hitRev) "min").map MergedRec.auxData = some hitRev.auxData ∧
    (mergeOne (some hitFwd) (some hitRev) "avg").map MergedRec.avg_pident = some (some 80) := by
  obtain ⟨h1, _, _, h4, _, h6, _, _⟩ := merge_modes hitFwd hitRev 0 0
  have hbit : hitRev.bitscore < hitFwd.bitscore := by norm_num [hitFwd, hitRev]
  refine ⟨?_, (h4 hbit).1, (h4 hbit).2.2, ?_⟩
  · rw [h1]; norm_num [hitFwd, hitRev]
  · rw [(h6 "avg").2.2]; norm_num [hitFwd, hitRev, avg_two]

/-- Preservation of the numeric fields under flipping both nested maps. -/
theorem map_flipIds_flipIds (z : Option HitRow) :
    Option.map HitRow.flipIds (Option.map HitRow.flipIds z) = z := by
  cases z <;> simp

/-- Flipping the ids does not change the update condition. -/
theorem updateCond_map_flip (z : Option HitRow) (r : HitRow) :
    updateCond (Option.map HitRow.flipIds z) r = updateCond z r := by
  cases z <;> simp [updateCond]

/-- One dictionary-update step of to_dir_dict: updating the flipped dictionary
at the swapped key mirrors updating the unflipped dictionary. -/
theorem dirUpdate_flip (D1 D2 : (String × String) → Option HitRow) (r : HitRow)
    (hD : ∀ x y, D1 (x, y) = Option.map HitRow.flipIds (D2 (y, x))) (a b : String) :
    dirUpdate true D1 r (a, b) = Option.map HitRow.flipIds (dirUpdate false D2 r (b, a)) := by
  have hkey : ∀ (u v : String), ((a, b) = (u, v)) ↔ ((b, a) = (v, u)) := by
    intro u v
    constructor <;> (intro h; rw [Prod.ext_iff] at h ⊢; exact ⟨h.2, h.1⟩)
  have hmatch : updateCond (D1 (r.sseqid, r.qseqid)) r
      = updateCond (D2 (r.qseqid, r.sseqid)) r := by
    rw [hD r.sseqid r.qseqid, updateCond_map_flip]
  simp only [dirUpdate, Bool.false_eq_true, if_true, if_false]
  by_cases hc : updateCond (D2 (r.qseqid, r.sseqid)) r = true
  · rw [hmatch, hc]
    simp only [if_true]
    by_cases hk : (a, b) = (r.sseqid, r.qseqid)
    · have hk2 : (b, a) = (r.qseqid, r.sseqid) := (hkey _ _).mp hk
      simp [hk, hk2, HitRow.flipIds]
    · have hk2 : ¬(b, a) = (r.qseqid, r.sseqid) := fun hc2 => hk ((hkey _ _).mpr hc2)
      simp [hk, hk2, hD a b]
  · rw [hmatch, Bool.not_eq_true] at *
    rw [hc]
    simp only [Bool.false_eq_true, if_false]
    exact hD a b

/-- The flipped directional dictionary at (x, y) is the unflipped dictionary at
(y, x) with its two ids swapped. -/
theorem to_dir_dict_flip (df : List HitRow) (emax Lmin : Option ℚ) (x y : String) :
    to_dir_dict df true emax Lmin (x, y)
      = Option.map HitRow.flipIds (to_dir_dict df false emax Lmin (y, x)) := by
  suffices h : ∀ (D1 D2 : (String × String) → Option HitRow),
      (∀ u v, D1 (u, v) = Option.map HitRow.flipIds (D2 (v, u))) →
      ∀ u v,
        df.foldl (fun D r => if passesFilters emax Lmin r then dirUpdate true D r else D) D1 (u, v)
          = Option.map HitRow.flipIds
              (df.foldl (fun D r => if passesFilters emax Lmin r then dirUpdate false D r else D)
                D2 (v, u)) by
    exact h _ _ (fun u v => rfl) x y
  induction df with
  | nil => intro D1 D2 hD u v; exact hD u v
  | cons r t ih =>
      intro D1 D2 hD u v
      simp only [List.foldl_cons]
      by_cases hp : passesFilters emax Lmin r = true
      · simp only [hp, if_true]
        exact ih _ _ (fun u v => dirUpdate_flip D1 D2 r hD u v) u v
      · simp only [hp, if_false]
        exact ih _ _ hD u v

/-- The combined score of a merge does not change when the two sides are
swapped and their ids flipped. -/
theorem mergeOne_score_swap (u v : Option HitRow) (how : String) :
    (mergeOne (Option.map HitRow.flipIds v) (Option.map HitRow.flipIds u) how).map MergedRec.score
      = (mergeOne u v how).map MergedRec.score := by
  cases u <;> cases v <;> simp [mergeOne, HitRow.flipIds]
  split_ifs <;> simp [max_comm, min_comm, add_comm]

/-- C7: merging the two directional tables in the opposite order, with the
flip applied to the other table, yields a merged dictionary that at the
swapped key (b, a) has a record exactly when the original merge has one at
(a, b), with the same combined score, for every merge mode. -/
theorem merge_symmetric_input_order (A B : List HitRow) (emax Lmin : Option ℚ) (how : String)
    (a b : String) :
    (merge_symmetric (to_dir_dict B false emax Lmin) (to_dir_dict A true emax Lmin) how
        (b, a)).map MergedRec.score
      = (merge_symmetric (to_dir_dict A false emax Lmin) (to_dir_dict B true emax Lmin) how
          (a, b)).map MergedRec.score ∧
    (merge_symmetric (to_dir_dict B false emax Lmin) (to_dir_dict A true emax Lmin) how
        (b, a)).isSome
      = (merge_symmetric (to_dir_dict A false emax Lmin) (to_dir_dict B true emax Lmin) how
          (a, b)).isSome := by
  have h1 : to_dir_dict B true emax Lmin (a, b)
      = Option.map HitRow.flipIds (to_dir_dict B false emax Lmin (b, a)) :=
    to_dir_dict_flip B emax Lmin a b
  have h2 : to_dir_dict A true emax Lmin (b, a)
      = Option.map HitRow.flipIds (to_dir_dict A false emax Lmin (a, b)) :=
    to_dir_dict_flip A emax Lmin b a
  have hmain :
      (merge_symmetric (to_dir_dict B false emax Lmin) (to_dir_dict A true emax Lmin) how
          (b, a)).map MergedRec.score
        = (merge_symmetric (to_dir_dict A false emax Lmin) (to_dir_dict B true emax Lmin) how
            (a, b)).map MergedRec.score := by
    calc (mergeOne (to_dir_dict B false emax Lmin (b, a)) (to_dir_dict A true emax Lmin (b, a))
            how).map MergedRec.score
        = (mergeOne (Option.map HitRow.flipIds (to_dir_dict B true emax Lmin (a, b)))
            (Option.map HitRow.flipIds (to_dir_dict A false emax Lmin (a, b))) how).map
              MergedRec.score := by
          rw [h1, map_flipIds_flipIds, ← h2]
      _ = (mergeOne (to_dir_dict A false emax Lmin (a, b)) (to_dir_dict B true emax Lmin (a, b))
            how).map MergedRec.score :=
          mergeOne_score_swap (to_dir_dict A false emax Lmin (a, b))
            (to_dir_dict B true emax Lmin (a, b)) how
  refine ⟨hmain, ?_⟩
  have hs := congrArg Option.isSome hmain
  simpa using hs

/-- Mapping a matching projection over a filterMap yields a sublist of the
projected source list. -/
theorem filterMap_map_sublist {α β γ : Type} (l : List α) (g : α → Option β) (h : α → γ)
    (f : β → γ) (hfg : ∀ a b, g a = some b → f b = h a) :
    ((l.filterMap g).map f).Sublist (l.map h) := by
  induction l with
  | nil => simp
  | cons a t ih =>
      cases hg : g a with
      | none =>
          simp only [List.filterMap_cons, hg, List.map_cons]
          exact ih.trans (List.sublist_cons_self _ _)
      | some b =>
          simp only [List.filterMap_cons, hg, List.map_cons]
          rw [hfg a b hg]
          exact ih.cons₂ _

/-- First components of a zip form a sublist of the first list. -/
theorem map_fst_zip_sublist {α β : Type} (r : List α) (c : List β) :
    ((r.zip c).map Prod.fst).Sublist r := by
  induction r generalizing c with
  | nil => simp
  | cons a t ih =>
      cases c with
      | nil => simp
      | cons b tc =>
          simp only [List.zip_cons_cons, List.map_cons]
          exact (ih tc).cons₂ _

/-- Second components of a zip form a sublist of the second list. -/
theorem map_snd_zip_sublist {α β : Type} (r : List α) (c : List β) :
    ((r.zip c).map Prod.snd).Sublist c := by
  induction r generalizing c with
  | nil => simp
  | cons a t ih =>
      cases c with
      | nil => simp
      | cons b tc =>
          simp only [List.zip_cons_cons, List.map_cons]
          exact (ih tc).cons₂ _

/-- Every record stored in the cell dictionary built by the build_cost_matrix
fold comes from the merged list or from the initial state. -/
theorem buildFold_cell_mem (qs ts : List String) (l : List ((String × String) × MergedRec)) :
    ∀ (st : (ℕ → ℕ → ℚ) × (ℕ → ℕ → Option MergedRec) × ℚ) (i j : ℕ) (m : MergedRec),
      (l.foldl (buildStep qs ts) st).2.1 i j = some m →
      (∃ k, (k, m) ∈ l) ∨ st.2.1 i j = some m := by
  induction l with
  | nil => intro st i j m h; exact Or.inr h
  | cons p t ih =>
      intro st i j m h
      rcases ih (buildStep qs ts st p) i j m h with h1 | h2
      · obtain ⟨k, hk⟩ := h1
        exact Or.inl ⟨k, List.mem_cons_of_mem _ hk⟩
      · simp only [buildStep] at h2
        by_cases hcond : st.1 (idxOf p.1.1 qs) (idxOf p.1.2 ts) < p.2.score
        · rw [if_pos hcond] at h2
          by_cases hij : i = idxOf p.1.1 qs ∧ j = idxOf p.1.2 ts
          · rw [if_pos hij] at h2
            exact Or.inl ⟨p.1, by rw [← Option.some_inj.mp h2]; exact List.mem_cons_self _ _⟩
          · rw [if_neg hij] at h2
            exact Or.inr h2
        · rw [if_neg hcond] at h2
          exact Or.inr h2

/-- Every record in the cell dictionary of build_cost_matrix is one of the
merged input records, with its key. -/
theorem build_cost_matrix_cell (merged : List ((String × String) × MergedRec)) :
    (build_cost_matrix merged).cell
      = (merged.foldl
          (buildStep (sortStr (dedupStr (merged.map (fun p => p.1.1))))
            (sortStr (dedupStr (merged.map (fun p => p.1.2)))))
          (fun _ _ => 0, fun _ _ => none, 0)).2.1 := rfl

/-- Every record in the cell dictionary of build_cost_matrix is one of the
merged input records, with its key. -/
theorem build_cell_mem (merged : List ((String × String) × MergedRec)) (i j : ℕ)
    (m : MergedRec) (h : (build_cost_matrix merged).cell i j = some m) :
    ∃ k, (k, m) ∈ merged := by
  rw [build_cost_matrix_cell] at h
  have hres := buildFold_cell_mem _ _ merged _ i j m h
  rcases hres with h1 | h2
  · exact h1
  · exact absurd h2 (by simp)

/-- C4: for every merged-record input and every solver whose returned index
arrays contain no duplicates (the AssignmentSolver contract), the chosen list
of the pipeline has pairwise distinct query indices, pairwise distinct target
indices, and every chosen entry carries a record that exists in the merged
input. -/
theorem assignment_valid (LSA : List (List ℚ) → List ℕ × List ℕ)
    (merged : List ((String × String) × MergedRec))
    (hr : (solve_hungarian LSA (cost_matrix (build_cost_matrix merged))).1.Nodup)
    (hc : (solve_hungarian LSA (cost_matrix (build_cost_matrix merged))).2.1.Nodup) :
    ((mainChosen LSA merged).map (fun t => t.1)).Nodup ∧
    ((mainChosen LSA merged).map (fun t => t.2.1)).Nodup ∧
    ∀ t ∈ mainChosen LSA merged, ∃ k, (k, t.2.2) ∈ merged := by
  set b := build_cost_matrix merged with hb
  set sol := solve_hungarian LSA (cost_matrix b) with hsol
  have hchosen : mainChosen LSA merged
      = chosenPairs b.queries.length b.targets.length b.cell sol.1 sol.2.1 sol.2.2 := rfl
  refine ⟨?_, ?_, ?_⟩
  · rw [hchosen]
    have hsub : (((chosenPairs b.queries.length b.targets.length b.cell sol.1 sol.2.1
        sol.2.2).map (fun t => t.1))).Sublist
        ((sol.1.zip sol.2.1).map (fun ij => if sol.2.2 then ij.2 else ij.1)) := by
      apply filterMap_map_sublist
      intro ij t hg
      try simp only at hg
      by_cases hin : (if sol.2.2 then ij.2 else ij.1) < b.queries.length ∧
          (if sol.2.2 then ij.1 else ij.2) < b.targets.length
      · rw [if_pos hin] at hg
        rcases hcell : b.cell (if sol.2.2 then ij.2 else ij.1) (if sol.2.2 then ij.1 else ij.2)
          with _ | m
        · rw [hcell] at hg; simp at hg
        · rw [hcell] at hg
          simp only [Option.map_some'] at hg
          rw [← Option.some_inj.mp hg]
      · rw [if_neg hin] at hg; simp at hg
    cases htr : sol.2.2 with
    | true =>
        rw [htr] at hsub
        refine List.Sublist.nodup ?_ ((map_snd_zip_sublist sol.1 sol.2.1).nodup hc)
        exact hsub
    | false =>
        rw [htr] at hsub
        refine List.Sublist.nodup ?_ ((map_fst_zip_sublist sol.1 sol.2.1).nodup hr)
        exact hsub
  · rw [hchosen]
    have hsub : (((chosenPairs b.queries.length b.targets.length b.cell sol.1 sol.2.1
        sol.2.2).map (fun t => t.2.1))).Sublist
        ((sol.1.zip sol.2.1).map (fun ij => if sol.2.2 then ij.1 else ij.2)) := by
      apply filterMap_map_sublist
      intro ij t hg
      try simp only at hg
      by_cases hin : (if sol.2.2 then ij.2 else ij.1) < b.queries.length ∧
          (if sol.2.2 then ij.1 else ij.2) < b.targets.length
      · rw [if_pos hin] at hg
        rcases hcell : b.cell (if sol.2.2 then ij.2 else ij.1) (if sol.2.2 then ij.1 else ij.2)
          with _ | m
        · rw [hcell] at hg; simp at hg
        · rw [hcell] at hg
          simp only [Option.map_some'] at hg
          rw [← Option.some_inj.mp hg]
      · rw [if_neg hin] at hg; simp at hg
    cases htr : sol.2.2 with
    | true =>
        rw [htr] at hsub
        refine List.Sublist.nodup ?_ ((map_fst_zip_sublist sol.1 sol.2.1).nodup hr)
        exact hsub
    | false =>
        rw [htr] at hsub
        refine List.Sublist.nodup ?_ ((map_snd_zip_sublist sol.1 sol.2.1).nodup hc)
        exact hsub
  · intro t ht
    rw [hchosen] at ht
    obtain ⟨ij, _, hg⟩ := List.mem_filterMap.mp ht
    try simp only at hg
    by_cases hin : (if sol.2.2 then ij.2 else ij.1) < b.queries.length ∧
        (if sol.2.2 then ij.1 else ij.2) < b.targets.length
    · rw [if_pos hin] at hg
      rcases hcell : b.cell (if sol.2.2 then ij.2 else ij.1) (if sol.2.2 then ij.1 else ij.2)
        with _ | m
      · rw [hcell] at hg; simp at hg
      · rw [hcell] at hg
        simp only [Option.map_some'] at hg
        have hm : t.2.2 = m := by rw [← Option.some_inj.mp hg]
        rw [hm]
        exact build_cell_mem merged _ _ m hcell
    · rw [if_neg hin] at hg; simp at hg

/-- Merged record for the pair (a, t) with score 10 in the failing input. -/
def recAT : MergedRec := ⟨"a", "t", none, 50, 0, 10, 10, none, none, none⟩

/-- Merged record for the pair (b, s) with score 1 in the failing input. -/
def recBS : MergedRec := ⟨"b", "s", none, 50, 0, 1, 1, none, none, none⟩

/-- Merged record for the pair (c, s) with score 10 in the failing input. -/
def recCS : MergedRec := ⟨"c", "s", none, 50, 0, 10, 10, none, none, none⟩

/-- Failing input for the rectangular-matrix rule: three queries a, b, c and two
targets s, t, so the cost matrix is 3 x 2 and main transposes it. -/
def demoMerged : List ((String × String) × MergedRec) :=
  [(("a", "t"), recAT), (("b", "s"), recBS), (("c", "s"), recCS)]

/-- The cost matrix of the failing input: queries a, b, c by targets s, t with
maximum score 10. -/
theorem demoMerged_cost : cost_matrix (build_cost_matrix demoMerged) = [[10, 0], [9, 10], [0, 10]] := by
  simp [cost_matrix, build_cost_matrix, buildStep, demoMerged, sortStr, insertStr, dedupStr,
    strLeB, idxOf, recAT, recBS, recCS, List.range_succ]
  norm_num

/-- The transposed cost matrix fed to the solver on the failing input. -/
theorem demoMerged_tcost :
    (cost_matrix (build_cost_matrix demoMerged)).transpose = [[10, 9, 0], [0, 10, 10]] := by
  rw [demoMerged_cost]
  rfl

/-- On the failing input the transposed matrix has a unique minimum-cost
assignment: target s to query c and target t to query a, with total cost 0. -/
theorem demoMerged_optimal_cols (cols : List ℕ)
    (h : IsOptimalAssign (cost_matrix (build_cost_matrix demoMerged)).transpose cols) :
    cols = [2, 0] := by
  obtain ⟨hmem, hle⟩ := h
  rw [demoMerged_tcost] at hmem hle
  have hmem' : cols ∈ ([[0, 1], [0, 2], [1, 0], [1, 2], [2, 0], [2, 1]] : List (List ℕ)) := hmem
  have hbest := hle [2, 0] (by decide)
  simp only [List.mem_cons, List.mem_singleton, List.not_mem_nil, or_false] at hmem'
  rcases hmem' with h | h | h | h | h | h <;> subst h
  · exfalso; norm_num [assignCost] at hbest
  · exfalso; norm_num [assignCost] at hbest
  · exfalso; norm_num [assignCost] at hbest
  · exfalso; norm_num [assignCost] at hbest
  · rfl
  · exfalso; norm_num [assignCost] at hbest

/-- C1: on the failing input (3 queries, 2 targets, so the matrix is transposed)
with any solver output satisfying the minimum-cost contract, solve_hungarian
already returns the indices swapped back to the original orientation, namely
the cells (2,0) = (c,s) and (0,1) = (a,t), both backed by real records; but
main swaps the indices a second time, so the reported output is the single
pair (1,0) = (b,s), which is not among the solver-selected cells: the selected
pairs are dropped and a never-selected pair is reported. -/
theorem transpose_double_swap (cols : List ℕ)
    (hopt : IsOptimalAssign (cost_matrix (build_cost_matrix demoMerged)).transpose cols) :
    solve_hungarian (fun _ => (List.range 2, cols)) (cost_matrix (build_cost_matrix demoMerged))
      = ([2, 0], [0, 1], true) ∧
    (build_cost_matrix demoMerged).cell 2 0 = some recCS ∧
    (build_cost_matrix demoMerged).cell 0 1 = some recAT ∧
    (mainChosen (fun _ => (List.range 2, cols)) demoMerged).map (fun t => (t.1, t.2.1))
      = [(1, 0)] ∧
    ∀ p ∈ (mainChosen (fun _ => (List.range 2, cols)) demoMerged).map (fun t => (t.1, t.2.1)),
      p ∉ ((solve_hungarian (fun _ => (List.range 2, cols))
            (cost_matrix (build_cost_matrix demoMerged))).1.zip
          (solve_hungarian (fun _ => (List.range 2, cols))
            (cost_matrix (build_cost_matrix demoMerged))).2.1) := by
  have hcols := demoMerged_optimal_cols cols hopt
  subst hcols
  have hsolve : solve_hungarian (fun _ => (List.range 2, [2, 0]))
      (cost_matrix (build_cost_matrix demoMerged)) = ([2, 0], [0, 1], true) := rfl
  have hql : (build_cost_matrix demoMerged).queries = ["a", "b", "c"] := by decide
  have htl : (build_cost_matrix demoMerged).targets = ["s", "t"] := by decide
  have hcell10 : (build_cost_matrix demoMerged).cell 1 0 = some recBS := by
    simp [build_cost_matrix, buildStep, demoMerged, sortStr, insertStr, dedupStr, strLeB,
      idxOf, recAT, recBS, recCS]
  have hmain : (mainChosen (fun _ => (List.range 2, [2, 0])) demoMerged).map
      (fun t => (t.1, t.2.1)) = [(1, 0)] := by
    simp [mainChosen, chosenPairs, hsolve, hql, htl, hcell10]
  refine ⟨hsolve, ?_, ?_, hmain, ?_⟩
  · simp [build_cost_matrix, buildStep, demoMerged, sortStr, insertStr, dedupStr, strLeB,
      idxOf, recAT, recBS, recCS]
  · simp [build_cost_matrix, buildStep, demoMerged, sortStr, insertStr, dedupStr, strLeB,
      idxOf, recAT, recBS, recCS]
  · intro p hp
    rw [hmain] at hp
    rw [hsolve]
    simp only [List.mem_singleton] at hp
    subst hp
    decide

/-- Witness for transpose_double_swap: the concrete optimal column assignment
[2, 0] of the transposed failing-input matrix satisfies the solver contract and
exhibits the divergence. -/
theorem transpose_double_swap_witness :
    (mainChosen (fun _ => (List.range 2, [2, 0])) demoMerged).map (fun t => (t.1, t.2.1))
      = [(1, 0)] ∧
    (build_cost_matrix demoMerged).cell 2 0 = some recCS ∧
    (build_cost_matrix demoMerged).cell 0 1 = some recAT := by
  have hopt : IsOptimalAssign (cost_matrix (build_cost_matrix demoMerged)).transpose [2, 0] := by
    rw [demoMerged_tcost]
    constructor
    · decide
    · intro c1 hc1
      have hc1' : c1 ∈ ([[0, 1], [0, 2], [1, 0], [1, 2], [2, 0], [2, 1]] : List (List ℕ)) := hc1
      simp only [List.mem_cons, List.mem_singleton, List.not_mem_nil, or_false] at hc1'
      rcases hc1' with h | h | h | h | h | h <;> subst h <;> norm_num [assignCost]
  obtain ⟨_, h2, h3, h4, _⟩ := transpose_double_swap [2, 0] hopt
  exact ⟨h4, h2, h3⟩

/-- Single-record merged input for the assignment-validity witness. -/
def recST : MergedRec := ⟨"a", "t", none, 50, 0, 5, 5, none, none, none⟩

/-- Single-record merged input: one query, one target, square matrix. -/
def demoSingle : List ((String × String) × MergedRec) := [(("a", "t"), recST)]

/-- Witness for assignment_valid: on the single-record input with the modelled
minimum-cost solver, the chosen list has distinct indices and only real
records. -/
theorem assignment_valid_witness :
    ((mainChosen lsaSpec demoSingle).map (fun t => t.1)).Nodup ∧
    ((mainChosen lsaSpec demoSingle).map (fun t => t.2.1)).Nodup ∧
    ∀ t ∈ mainChosen lsaSpec demoSingle, ∃ k, (k, t.2.2) ∈ demoSingle := by
  have hcost : cost_matrix (build_cost_matrix demoSingle) = [[0]] := by
    simp [cost_matrix, build_cost_matrix, buildStep, demoSingle, sortStr, insertStr, dedupStr,
      strLeB, idxOf, recST, List.range_succ]
  have hsolve : solve_hungarian lsaSpec (cost_matrix (build_cost_matrix demoSingle))
      = ([0], [0], false) := by
    rw [hcost]; decide
  exact assignment_valid lsaSpec demoSingle (by rw [hsolve]; decide) (by rw [hsolve]; decide)

/-! ## Distributed Tanimoto matrix: TanimotoSimilaritySearch/AllvsAllMPIsimilaritySearch.py -/

/-- Reconciliation of one unordered off-diagonal pair (upper cell u, lower cell
l), as in lines 183-200: both finite are replaced by their mean, exactly one
finite copies into the other, neither stays NaN; returns the new (upper, lower)
cells. -/
def symCell (u l : Option ℚ) : Option ℚ × Option ℚ :=
  match u, l with
  | some x, some y => (some ((x + y) / 2), some ((x + y) / 2))
  | some x, none => (some x, some x)
  | none, some y => (some y, some y)
  | none, none => (none, none)

/-- Embeds the symmetrization of main (lines 183-204): every off-diagonal pair
is reconciled by symCell on (upper, lower) = (M[i][j], M[j][i]) for i < j, and
the diagonal is forced to 1.0 for valid entities, NaN for invalid ones. -/
def symmetrize (M : ℕ → ℕ → Option ℚ) (valid : ℕ → Bool) : ℕ → ℕ → Option ℚ :=
  fun i j =>
    if i = j then (if valid i then some 1 else none)
    else if i < j then (symCell (M i j) (M j i)).1
    else (symCell (M j i) (M i j)).2

/-- C9: the entity-matrix symmetrization is idempotent: applying it twice gives
the same matrix, cell by cell, as applying it once. -/
theorem symmetrize_idempotent (M : ℕ → ℕ → Option ℚ) (valid : ℕ → Bool) (i j : ℕ) :
    symmetrize (symmetrize M valid) valid i j = symmetrize M valid i j := by
  have half (a : ℚ) : (a + a) / 2 = a := by ring
  by_cases hij : i = j
  · simp [symmetrize, hij]
  · by_cases hlt : i < j
    · have hne : ¬j = i := fun h => hij h.symm
      have hnlt : ¬j < i := by omega
      simp only [symmetrize, hij, hlt, hne, hnlt, if_true, if_false]
      rcases hu : M i j with _ | x <;> rcases hl : M j i with _ | y <;>
        simp [symCell, hu, hl, half]
    · have hne : ¬j = i := fun h => hij h.symm
      have hjlt : j < i := by omega
      simp only [symmetrize, hij, hlt, hne, hjlt, if_true, if_false]
      rcases hu : M j i with _ | x <;> rcases hl : M i j with _ | y <;>
        simp [symCell, hu, hl, half]

/-! ## Task partitioning: diamond_blastp_mpi.py and the round-robin batching -/

/-- Embeds the per-worker count of run_main_workflow_parallel_diamond
(lines 147-149): avg, rem = divmod(N, SIZE); worker i receives avg+1 when
i < rem, else avg. -/
def countW (N W i : ℕ) : ℕ := N / W + if i < N % W then 1 else 0

/-- Embeds displs_d (line 150): offset of worker i is the sum of the counts of
the previous workers. -/
def displW (N W i : ℕ) : ℕ := ((List.range i).map (countW N W)).sum

/-- Embeds the task slicing (lines 152-156): worker i receives
all_tasks[displ i : displ i + count i]. -/
def task_slices {α : Type} (tasks : List α) (W : ℕ) : List (List α) :=
  (List.range W).map
    (fun i => (tasks.drop (displW tasks.length W i)).take (countW tasks.length W i))

/-- Embeds make_batches of AllvsAllMPIsimilaritySearch.py (lines 94-96):
half-open ranges (i, min(i + batch, n)) for i in range(0, n, batch); the number
of steps of a Python range with positive step is the rounded-up quotient. -/
def make_batches (n batch_size : ℕ) : List (ℕ × ℕ) :=
  (List.range ((n + batch_size - 1) / batch_size)).map
    (fun i => (i * batch_size, min (i * batch_size + batch_size) n))

/-- Embeds the round-robin assignment row_batches[rank::size] (line 152 of the
Tanimoto script): for rank < size these are exactly the elements whose index is
congruent to the rank modulo the size. -/
def rrSlice {α : Type} (l : List α) (W k : ℕ) : List α :=
  ((l.enum).filter (fun p => p.1 % W == k)).map Prod.snd

/-- Sum of base plus an indicator of the first r indices over range W. -/
theorem sum_base_ite (base r : ℕ) : ∀ W : ℕ, r ≤ W →
    ((List.range W).map (fun i => base + if i < r then 1 else 0)).sum = W * base + r := by
  intro W
  induction W with
  | zero => intro h; interval_cases r; simp
  | succ W ih =>
      intro h
      rw [List.range_succ, List.map_append, List.sum_append]
      simp only [List.map_cons, List.map_nil, List.sum_cons, List.sum_nil]
      by_cases hr : r ≤ W
      · rw [ih hr, if_neg (by omega)]
        ring
      · have hrW : r = W + 1 := by omega
        subst hrW
        rw [if_pos (by omega)]
        have hconst : ((List.range W).map (fun i => base + if i < W + 1 then 1 else 0))
            = List.replicate W (base + 1) := by
          rw [List.eq_replicate_iff]
          refine ⟨by simp, ?_⟩
          intro b hb
          obtain ⟨i, hi, hbi⟩ := List.mem_map.mp hb
          rw [← hbi, if_pos (by have := List.mem_range.mp hi; omega)]
        rw [hconst, List.sum_replicate, smul_eq_mul]
        ring

/-- The worker counts sum to the task count. -/
theorem countW_sum (N W : ℕ) (hW : 0 < W) :
    ((List.range W).map (countW N W)).sum = N := by
  have h : ((List.range W).map (countW N W)).sum = W * (N / W) + N % W := by
    unfold countW
    exact sum_base_ite (N / W) (N % W) W (le_of_lt (Nat.mod_lt N hW))
  rw [h]
  exact Nat.div_add_mod N W

/-- Concatenating the first k contiguous slices reproduces the first
displ(k) tasks. -/
theorem task_slices_join_take {α : Type} (tasks : List α) (W : ℕ) : ∀ k : ℕ,
    (((List.range k).map
        (fun i => (tasks.drop (displW tasks.length W i)).take (countW tasks.length W i))).flatten)
      = tasks.take (displW tasks.length W k) := by
  intro k
  induction k with
  | zero => simp [displW]
  | succ k ih =>
      rw [List.range_succ, List.map_append, List.flatten_append]
      simp only [List.map_cons, List.map_nil, List.flatten_cons, List.flatten_nil, List.append_nil]
      rw [ih]
      have hd : displW tasks.length W (k + 1)
          = displW tasks.length W k + countW tasks.length W k := by
        unfold displW
        rw [List.range_succ, List.map_append, List.sum_append]
        simp
      rw [hd, List.take_add]

/-- Concatenating all contiguous slices in worker order reproduces the task
list. -/
theorem task_slices_join {α : Type} (tasks : List α) (W : ℕ) (hW : 0 < W) :
    (task_slices tasks W).flatten = tasks := by
  unfold task_slices
  rw [task_slices_join_take tasks W W]
  have hN : displW tasks.length W W = tasks.length := by
    unfold displW
    exact countW_sum tasks.length W hW
  rw [hN, List.take_length]

/-- Congruence for flatMap over a list. -/
theorem flatMap_congr_mem {α β : Type} (l : List α) (f g : α → List β)
    (h : ∀ a ∈ l, f a = g a) : l.flatMap f = l.flatMap g := by
  induction l with
  | nil => rfl
  | cons a t ih =>
      rw [List.flatMap_cons, List.flatMap_cons, h a (List.mem_cons_self _ _),
        ih (fun b hb => h b (List.mem_cons_of_mem _ hb))]

/-- Distributing an indexed list over the residue-class filters of a worker set
that contains the residue of its head exactly once: the head moves to the
front. -/
theorem flatMap_filter_cons_perm {α : Type} (W : ℕ) (p : ℕ × α) (t : List (ℕ × α)) :
    ∀ ks : List ℕ, ks.count (p.1 % W) = 1 →
      List.Perm (ks.flatMap (fun k => (p :: t).filter (fun q => q.1 % W == k)))
        (p :: ks.flatMap (fun k => t.filter (fun q => q.1 % W == k))) := by
  intro ks
  induction ks with
  | nil => intro h; simp at h
  | cons k ks ih =>
      intro hcount
      rw [List.count_cons] at hcount
      simp only [beq_iff_eq] at hcount
      by_cases hk : p.1 % W = k
      · have hknot : ks.count (p.1 % W) = 0 := by
          rw [if_pos hk.symm] at hcount
          omega
        have hnotmem : p.1 % W ∉ ks := by
          intro hmem
          have := List.count_pos_iff.mpr hmem
          omega
        have hrest : ks.flatMap (fun k2 => (p :: t).filter (fun q => q.1 % W == k2))
            = ks.flatMap (fun k2 => t.filter (fun q => q.1 % W == k2)) := by
          apply flatMap_congr_mem
          intro k2 hk2
          rw [List.filter_cons,
            if_neg (fun hbeq => hnotmem (by rw [eq_of_beq hbeq]; exact hk2))]
        rw [List.flatMap_cons, List.flatMap_cons, hrest, List.filter_cons,
          if_pos (by simp [hk])]
        simp only [List.cons_append]
        exact List.Perm.refl _
      · have hcount2 : ks.count (p.1 % W) = 1 := by
          rw [if_neg (fun h => hk h.symm)] at hcount
          omega
        rw [List.flatMap_cons, List.flatMap_cons, List.filter_cons,
          if_neg (by intro hbeq; exact hk (eq_of_beq hbeq))]
        refine List.Perm.trans (List.Perm.append_left _ (ih hcount2)) ?_
        exact List.perm_middle

/-- Distributing an indexed list over all residue classes modulo W is a
permutation of the list. -/
theorem flatMap_filter_mod_perm {α : Type} (W : ℕ) (hW : 0 < W) (ps : List (ℕ × α)) :
    List.Perm ((List.range W).flatMap (fun k => ps.filter (fun q => q.1 % W == k))) ps := by
  induction ps with
  | nil => simp
  | cons p t ih =>
      have hcount : (List.range W).count (p.1 % W) = 1 :=
        List.count_eq_one_of_mem (List.nodup_range W)
          (List.mem_range.mpr (Nat.mod_lt _ hW))
      exact (flatMap_filter_cons_perm W p t (List.range W) hcount).trans (ih.cons p)

/-- The round-robin slices of the workers together form a permutation of the
batch list: every batch is assigned to exactly one worker, none dropped, none
duplicated. -/
theorem rrSlice_flatMap_perm {α : Type} (l : List α) (W : ℕ) (hW : 0 < W) :
    List.Perm ((List.range W).flatMap (fun k => rrSlice l W k)) l := by
  unfold rrSlice
  rw [← List.map_flatMap]
  have hperm := flatMap_filter_mod_perm W hW l.enum
  have := hperm.map Prod.snd
  rwa [List.enum_map_snd] at this

/-- C8: the contiguous partition gives W slices whose sizes sum to N, where the
first N mod W workers receive one extra unit over the base N div W, any two
sizes differ by at most one, and the concatenation in worker order reproduces
the task list; the round-robin policy over row batches assigns every batch to
exactly one worker (the slices together are a permutation of the batch list). -/
theorem task_partitioner {α : Type} (tasks : List α) (W n bs : ℕ) (hW : 0 < W) :
    ((List.range W).map (countW tasks.length W)).sum = tasks.length ∧
    (∀ i, i < tasks.length % W → countW tasks.length W i = tasks.length / W + 1) ∧
    (∀ i, tasks.length % W ≤ i → countW tasks.length W i = tasks.length / W) ∧
    (∀ i j, countW tasks.length W i ≤ countW tasks.length W j + 1) ∧
    (task_slices tasks W).flatten = tasks ∧
    List.Perm ((List.range W).flatMap (fun k => rrSlice (make_batches n bs) W k))
      (make_batches n bs) := by
  refine ⟨countW_sum tasks.length W hW, ?_, ?_, ?_, task_slices_join tasks W hW,
    rrSlice_flatMap_perm (make_batches n bs) W hW⟩
  · intro i hi
    unfold countW
    rw [if_pos hi]
  · intro i hi
    unfold countW
    rw [if_neg (by omega), Nat.add_zero]
  · intro i j
    unfold countW
    split_ifs <;> omega

/-- Witness for task_partitioner at five tasks, two workers and batch size two. -/
theorem task_partitioner_witness :
    ((List.range 2).map (countW 5 2)).sum = 5 ∧
    (∀ i, i < 5 % 2 → countW 5 2 i = 5 / 2 + 1) ∧
    (∀ i, 5 % 2 ≤ i → countW 5 2 i = 5 / 2) ∧
    (∀ i j, countW 5 2 i ≤ countW 5 2 j + 1) ∧
    (task_slices [10, 20, 30, 40, 50] 2).flatten = [10, 20, 30, 40, 50] ∧
    List.Perm ((List.range 2).flatMap (fun k => rrSlice (make_batches 5 2) 2 k))
      (make_batches 5 2) := by
  have h := task_partitioner ([10, 20, 30, 40, 50] : List ℕ) 2 5 2 (by norm_num)
  simpa using h

/-- One row of a score block: NaN everywhere when the query fingerprint is
invalid, otherwise the similarity against each valid target and NaN at invalid
targets. This is compute_block (lines 99-121) with the bulk-similarity packing
over the valid targets expanded pointwise. -/
def rowOf (sim : ℕ → ℕ → ℚ) (q : Option ℕ) (tfps : List (Option ℕ)) : List (Option ℚ) :=
  match q with
  | none => tfps.map (fun _ => none)
  | some qf => tfps.map (fun t => t.map (sim qf))

/-- Embeds compute_block (lines 99-121): one row per query fingerprint. -/
def compute_block (sim : ℕ → ℕ → ℚ) (qfps tfps : List (Option ℕ)) : List (List (Option ℚ)) :=
  qfps.map (fun q => rowOf sim q tfps)

/-- Python slice fps[s:e]. -/
def sliceFP (fps : List (Option ℕ)) (s e : ℕ) : List (Option ℕ) := (fps.drop s).take (e - s)

/-- Embeds the inner column loop of main (lines 160-166): one block per column
batch for a fixed row range. -/
def row_block_parts (sim : ℕ → ℕ → ℚ) (fps : List (Option ℕ)) (cb rs re : ℕ) :
    List (List (List (Option ℚ))) :=
  (make_batches fps.length cb).map
    (fun b => compute_block sim (sliceFP fps rs re) (sliceFP fps b.1 b.2))

/-- Horizontal stacking (np.hstack, line 168) of blocks sharing the row count:
row i of the result is the concatenation of the rows i of the parts. -/
def hstackRows (parts : List (List (List (Option ℚ)))) (nrows : ℕ) :
    List (List (Option ℚ)) :=
  (List.range nrows).map (fun i => parts.flatMap (fun bl => bl.getD i []))

/-- The full-width row block of one row batch (lines 157-169). -/
def full_row_block (sim : ℕ → ℕ → ℚ) (fps : List (Option ℕ)) (cb rs re : ℕ) :
    List (List (Option ℚ)) :=
  hstackRows (row_block_parts sim fps cb rs re) (sliceFP fps rs re).length

/-- Placing one gathered block into the global matrix (lines 178-181):
M[rs : rs + height, :] = block. -/
def placeBlock (M : ℕ → ℕ → Option ℚ) (rs : ℕ) (rows : List (List (Option ℚ))) :
    ℕ → ℕ → Option ℚ :=
  fun r c => if rs ≤ r ∧ r < rs + rows.length then (rows.getD (r - rs) []).getD c none else M r c

/-- The blocks gathered on rank 0 (line 172): for every rank its round-robin
row batches, each paired with its computed full-width block, in rank order. -/
def gatherBlocks (sim : ℕ → ℕ → ℚ) (fps : List (Option ℕ)) (rb cb W : ℕ) :
    List (ℕ × List (List (Option ℚ))) :=
  (List.range W).flatMap
    (fun k => (rrSlice (make_batches fps.length rb) W k).map
      (fun b => (b.1, full_row_block sim fps cb b.1 b.2)))

/-- The global matrix assembled on rank 0 before symmetrization (lines
176-181): start from the all-NaN matrix and place every gathered block. -/
def assembled (sim : ℕ → ℕ → ℚ) (fps : List (Option ℕ)) (rb cb W : ℕ) :
    ℕ → ℕ → Option ℚ :=
  (gatherBlocks sim fps rb cb W).foldl (fun M p => placeBlock M p.1 p.2) (fun _ _ => none)

/-- The canonical full-width row of entity r: concatenation over the column
batches of its per-batch rows. -/
def rowCat (sim : ℕ → ℕ → ℚ) (fps : List (Option ℕ)) (cb : ℕ) (q : Option ℕ) :
    List (Option ℚ) :=
  (make_batches fps.length cb).flatMap (fun b => rowOf sim q (sliceFP fps b.1 b.2))

/-- Index access in a mapped range list. -/
theorem getD_map_range {β : Type} (n i : ℕ) (f : ℕ → β) (d : β) (h : i < n) :
    (((List.range n).map f).getD i d) = f i := by
  rw [List.getD_eq_getElem?_getD, List.getElem?_map, List.getElem?_range h]
  rfl

/-- Index access in a mapped list. -/
theorem getD_map_of_lt {β γ : Type} (l : List β) (g : β → γ) (i : ℕ) (d : γ)
    (h : i < l.length) : ((l.map g).getD i d) = g l[i] := by
  rw [List.getD_eq_getElem?_getD, List.getElem?_map, List.getElem?_eq_getElem h]
  rfl

/-- A slice element is the underlying list element. -/
theorem sliceFP_getElem (fps : List (Option ℕ)) (s e r : ℕ) (hs : s ≤ r) (hr : r < fps.length)
    (h : r - s < (sliceFP fps s e).length) :
    (sliceFP fps s e)[r - s] = fps[r] := by
  have hidx : s + (r - s) = r := by omega
  simp only [sliceFP, List.getElem_take, List.getElem_drop, hidx]

/-- Length of a slice. -/
theorem sliceFP_length (fps : List (Option ℕ)) (s e : ℕ) :
    (sliceFP fps s e).length = min (e - s) (fps.length - s) := by
  simp [sliceFP]

/-- Row extraction from a full-width row block: for a row index inside the
batch, the stacked row is the canonical row of that entity, independently of
the batch bounds. -/
theorem full_row_block_row (sim : ℕ → ℕ → ℚ) (fps : List (Option ℕ)) (cb rs re r : ℕ)
    (h1 : rs ≤ r) (h2 : r < re) (h3 : re ≤ fps.length) :
    (full_row_block sim fps cb rs re).getD (r - rs) []
      = rowCat sim fps cb (fps.getD r none) := by
  have hlen : (sliceFP fps rs re).length = re - rs := by
    rw [sliceFP_length]; omega
  have hi : r - rs < (sliceFP fps rs re).length := by omega
  rw [full_row_block, hstackRows, getD_map_range _ _ _ _ (by omega)]
  rw [row_block_parts, List.flatMap_map]
  rw [rowCat]
  apply flatMap_congr_mem
  intro b _
  have hr : r < fps.length := by omega
  rw [compute_block, getD_map_of_lt _ _ _ _ hi, sliceFP_getElem fps rs re r h1 hr hi]
  have hgetD : fps.getD r none = fps[r] := by
    rw [List.getD_eq_getElem?_getD, List.getElem?_eq_getElem hr]
    rfl
  rw [hgetD]

/-- A gathered block covers row r when r falls in its row range. -/
def coversRow (p : ℕ × List (List (Option ℚ))) (r : ℕ) : Prop :=
  p.1 ≤ r ∧ r < p.1 + p.2.length

/-- Folding placements of blocks none of which covers row r leaves row r of
the accumulator unchanged. -/
theorem fold_place_uncovered (blocks : List (ℕ × List (List (Option ℚ)))) (r c : ℕ) :
    ∀ M0 : ℕ → ℕ → Option ℚ, (∀ p ∈ blocks, ¬coversRow p r) →
      (blocks.foldl (fun M p => placeBlock M p.1 p.2) M0) r c = M0 r c := by
  induction blocks with
  | nil => intro M0 h; rfl
  | cons b bs ih =>
      intro M0 h
      rw [List.foldl_cons, ih _ (fun p hp => h p (List.mem_cons_of_mem _ hp))]
      rw [placeBlock]
      exact if_neg (h b (List.mem_cons_self _ _))

/-- Folding placements of blocks that all write the same value into cell
(r, c) when they cover row r produces that value when some block covers r. -/
theorem fold_place_covered (blocks : List (ℕ × List (List (Option ℚ)))) (r c : ℕ)
    (v : Option ℚ) :
    ∀ M0 : ℕ → ℕ → Option ℚ,
      (∀ p ∈ blocks, coversRow p r → ((p.2.getD (r - p.1) []).getD c none) = v) →
      (∃ p ∈ blocks, coversRow p r) →
      (blocks.foldl (fun M p => placeBlock M p.1 p.2) M0) r c = v := by
  induction blocks with
  | nil => intro M0 _ hex; obtain ⟨p, hp, _⟩ := hex; simp at hp
  | cons b bs ih =>
      intro M0 hval hex
      rw [List.foldl_cons]
      by_cases hbs : ∃ p ∈ bs, coversRow p r
      · exact ih _ (fun p hp => hval p (List.mem_cons_of_mem _ hp)) hbs
      · have hnone : ∀ p ∈ bs, ¬coversRow p r := by
          intro p hp hcov
          exact hbs ⟨p, hp, hcov⟩
        rw [fold_place_uncovered bs r c _ hnone]
        have hcovb : coversRow b r := by
          obtain ⟨p, hp, hcov⟩ := hex
          rcases List.mem_cons.mp hp with h | h
          · rwa [← h]
          · exact absurd hcov (hnone p h)
        rw [placeBlock]
        rw [if_pos (show b.1 ≤ r ∧ r < b.1 + b.2.length from hcovb)]
        exact hval b (List.mem_cons_self _ _) hcovb

/-- The gathered blocks of all ranks are, as a multiset, exactly one block per
row batch. -/
theorem gatherBlocks_perm (sim : ℕ → ℕ → ℚ) (fps : List (Option ℕ)) (rb cb W : ℕ)
    (hW : 0 < W) :
    List.Perm (gatherBlocks sim fps rb cb W)
      ((make_batches fps.length rb).map
        (fun b => (b.1, full_row_block sim fps cb b.1 b.2))) := by
  rw [gatherBlocks, ← List.map_flatMap]
  exact (rrSlice_flatMap_perm (make_batches fps.length rb) W hW).map _

/-- Bounds of a batch produced by make_batches. -/
theorem make_batches_bounds (n bs : ℕ) (hbs : 0 < bs) (b : ℕ × ℕ)
    (hb : b ∈ make_batches n bs) : b.1 < n ∧ b.1 ≤ b.2 ∧ b.2 ≤ n := by
  obtain ⟨i, hi, hbi⟩ := List.mem_map.mp hb
  have hiR := List.mem_range.mp hi
  have hdiv : ((n + bs - 1) / bs) * bs ≤ n + bs - 1 := Nat.div_mul_le_self _ _
  have hmul : (i + 1) * bs ≤ ((n + bs - 1) / bs) * bs :=
    Nat.mul_le_mul_right bs hiR
  have hlt : i * bs < n := by
    rcases Nat.eq_zero_or_pos n with hn | hn
    · subst hn
      rw [show (0 + bs - 1) / bs = 0 from Nat.div_eq_of_lt (by omega)] at hiR
      omega
    · have : (i + 1) * bs ≤ n + bs - 1 := le_trans hmul hdiv
      have hib : i * bs + bs ≤ n + bs - 1 := by
        calc i * bs + bs = (i + 1) * bs := by ring
          _ ≤ n + bs - 1 := this
      omega
  rw [← hbi]
  refine ⟨hlt, ?_, ?_⟩
  · show i * bs ≤ min (i * bs + bs) n
    omega
  · show min (i * bs + bs) n ≤ n
    omega

/-- For any row r < n, the batch r / rb of make_batches exists and covers r. -/
theorem make_batches_cover (n rb r : ℕ) (hrb : 0 < rb) (hr : r < n) :
    (r / rb * rb, min (r / rb * rb + rb) n) ∈ make_batches n rb ∧
    r / rb * rb ≤ r ∧ r < min (r / rb * rb + rb) n := by
  have hmod := Nat.div_add_mod r rb
  have hmlt := Nat.mod_lt r hrb
  have hflip : r / rb * rb = rb * (r / rb) := Nat.mul_comm _ _
  have hle : r / rb * rb ≤ r := by omega
  have hup : r < r / rb * rb + rb := by omega
  have hnum : r / rb < (n + rb - 1) / rb := by
    have h1 : r / rb ≤ (n - 1) / rb := Nat.div_le_div_right (by omega)
    have h2 : (n + rb - 1) / rb = (n - 1) / rb + 1 := by
      have : n + rb - 1 = (n - 1) + rb := by omega
      rw [this, Nat.add_div_right _ hrb]
    omega
  refine ⟨?_, hle, by omega⟩
  rw [make_batches]
  exact List.mem_map.mpr ⟨r / rb, List.mem_range.mpr hnum, rfl⟩

/-- The assembled matrix has, at every in-range row, the canonical row value,
whatever the worker count: each covering block writes the same value. -/
theorem assembled_cell (sim : ℕ → ℕ → ℚ) (fps : List (Option ℕ)) (rb cb W r c : ℕ)
    (hW : 0 < W) (hrb : 0 < rb) (hr : r < fps.length) :
    assembled sim fps rb cb W r c
      = (rowCat sim fps cb (fps.getD r none)).getD c none := by
  rw [assembled]
  apply fold_place_covered
  · intro p hp hcov
    have hp' := (gatherBlocks_perm sim fps rb cb W hW).mem_iff.mp hp
    obtain ⟨b, hb, hpb⟩ := List.mem_map.mp hp'
    obtain ⟨hb1, hb12, hb2⟩ := make_batches_bounds fps.length rb hrb b hb
    have hp1 : p.1 = b.1 := by rw [← hpb]
    have hp2 : p.2 = full_row_block sim fps cb b.1 b.2 := by rw [← hpb]
    obtain ⟨hc1, hc2⟩ := hcov
    rw [hp1] at hc1
    rw [hp1, hp2] at hc2
    have hlen : (full_row_block sim fps cb b.1 b.2).length = (sliceFP fps b.1 b.2).length := by
      rw [full_row_block, hstackRows, List.length_map, List.length_range]
    rw [hlen, sliceFP_length] at hc2
    rw [hp1, hp2, full_row_block_row sim fps cb b.1 b.2 r hc1 (by omega) hb2]
  · obtain ⟨hmem, hle, hlt⟩ := make_batches_cover fps.length rb r hrb hr
    refine ⟨(r / rb * rb, full_row_block sim fps cb (r / rb * rb) (min (r / rb * rb + rb)
      fps.length)), ?_, ?_⟩
    · apply (gatherBlocks_perm sim fps rb cb W hW).mem_iff.mpr
      exact List.mem_map.mpr ⟨_, hmem, rfl⟩
    · constructor
      · exact hle
      · show r < r / rb * rb
          + (full_row_block sim fps cb (r / rb * rb) (min (r / rb * rb + rb) fps.length)).length
        rw [full_row_block, hstackRows, List.length_map, List.length_range, sliceFP_length]
        omega

/-- C10: the global matrix assembled from the gathered per-rank blocks is, at
every cell of the n x n matrix, identical to the matrix assembled with a
single worker: the worker count does not change any assembled value. -/
theorem assembled_worker_count_irrelevant (sim : ℕ → ℕ → ℚ) (fps : List (Option ℕ))
    (rb cb W r c : ℕ) (hW : 0 < W) (hrb : 0 < rb) (hr : r < fps.length) :
    assembled sim fps rb cb W r c = assembled sim fps rb cb 1 r c := by
  rw [assembled_cell sim fps rb cb W r c hW hrb hr,
    assembled_cell sim fps rb cb 1 r c (by omega) hrb hr]

/-- Witness for the worker-count irrelevance at two fingerprints, batch size
one and two workers. -/
theorem assembled_worker_count_irrelevant_witness :
    assembled (fun i j => (i : ℚ) + j) [some 3, some 4] 1 1 2 0 0
      = assembled (fun i j => (i : ℚ) + j) [some 3, some 4] 1 1 1 0 0 :=
  assembled_worker_count_irrelevant (fun i j => (i : ℚ) + j) [some 3, some 4] 1 1 2 0 0
    (by norm_num) (by norm_num) (by norm_num)
